import Mathlib

/-!
Shallow embedding of the cellular-automaton core in `src/frame.rs`
(`Frame`, `Square`, `add_modulo`, `FrameIterator`, `next_frame`), together
with theorems settling the specification claims about it.

Conventions of the embedding:
* Rust `Vec<T>` becomes `List T`; `usize` becomes `Nat`; `isize` becomes `Int`.
* A Rust panic (out-of-bounds `Vec` index, failed `assert!`) is modelled by
  `Option`: `none` is "the call panics".
* References disappear: `Square` stores a copy of the (read-only) frame it
  views, which is sound because the code never mutates a frame while a
  `Square` on it is alive.
-/

namespace Simulation

variable {T : Type}

/-- `Frame<T>` from frame.rs: dense storage `data` plus `width`, `height`. -/
structure Frame (T : Type) where
  data : List T
  width : Nat
  height : Nat
  deriving DecidableEq

/-- `Frame::new(x, y)`: a frame whose `x * y` cells all hold `T::default()`
(modelled by `Inhabited.default`). -/
def Frame.new (T : Type) [Inhabited T] (x y : Nat) : Frame T :=
  { data := List.replicate (x * y) default, width := x, height := y }

/-- The linear index computed by `Frame::get` and `Frame::get_mut`:
`y * self.height + x` (note: `height`, not `width`, is the stride). -/
def Frame.index (f : Frame T) (x y : Nat) : Nat :=
  y * f.height + x

/-- `Frame::get(x, y)`: `&self.data[y * self.height + x]`.
`none` models the panic of an out-of-bounds `Vec` index. -/
def Frame.get (f : Frame T) (x y : Nat) : Option T :=
  f.data[f.index x y]?

/-- Writing `v` through `Frame::get_mut(x, y)` (the spec's `set(x, y, v)`):
`self.data[y * self.height + x] = v`. `none` models the panic of an
out-of-bounds `Vec` index. -/
def Frame.set (f : Frame T) (x y : Nat) (v : T) : Option (Frame T) :=
  if f.index x y < f.data.length then
    some { f with data := f.data.set (f.index x y) v }
  else none

/-- `add_modulo(x, y, m)` from frame.rs: asserts `y.abs() < m`, then returns
`((x % m + m) + delta) % m` where `delta = if y < 0 { y + m } else { y }`.
`none` models the assertion failure. -/
def add_modulo (x : Nat) (y : Int) (m : Nat) : Option Nat :=
  if y.natAbs < m then
    let base := x % m + m
    let delta := (if y < 0 then y + (m : Int) else y).toNat
    some ((base + delta) % m)
  else none

/-- `Square<'a, T>` from frame.rs: a read-only view of `frame` anchored at
`point`. -/
structure Square (T : Type) where
  frame : Frame T
  point : Nat × Nat

/-- `Square::get(i, j)`: wraps each axis with `add_modulo` and reads the
underlying frame at the wrapped coordinate. `none` models a panic in either
`add_modulo` call or in `Frame::get`. -/
def Square.get (sq : Square T) (i j : Int) : Option T :=
  match add_modulo sq.point.1 i sq.frame.width, add_modulo sq.point.2 j sq.frame.height with
  | some x, some y => sq.frame.get x y
  | _, _ => none

/-- `Square::coordinate()`: the anchor of the square. -/
def Square.coordinate (sq : Square T) : Nat × Nat :=
  sq.point

/-- The integer range `lo..hi` of a Rust `for` loop, as a list. -/
def intRange (lo hi : Int) : List Int :=
  (List.range (hi - lo).toNat).map (fun k => lo + (k : Int))

/-- `Square::within_ortholinear(r)`: the double loop
`for i in -r..r+1 { for j in -r..r+1 { if i != 0 || j != 0 { push get(i, j) } } }`.
The result is `none` when any of the `get` calls panics. -/
def Square.within_ortholinear (sq : Square T) (r : Int) : Option (List T) :=
  ((intRange (-r) (r + 1)).flatMap (fun i =>
    (intRange (-r) (r + 1)).flatMap (fun j =>
      if i ≠ 0 ∨ j ≠ 0 then [sq.get i j] else []))).mapM id

/-- `FrameIterator<'a, T>` from frame.rs. -/
structure FrameIterator (T : Type) where
  frame : Frame T
  next_index : Nat × Nat

/-- One call of `FrameIterator::next`: if `y < frame.width()` (sic: `width`,
not `height`), yield `(x, y, frame.get(x, y))` and advance `next_index`;
otherwise the iterator is exhausted. The yielded value is `none` when the
inner `Frame::get` panics. -/
def FrameIterator.next (it : FrameIterator T) :
    Option ((Nat × Nat × Option T) × FrameIterator T) :=
  let (x, y) := it.next_index
  if y < it.frame.width then
    some ((x, y, it.frame.get x y),
      { frame := it.frame
        next_index := if x + 1 < it.frame.width then (x + 1, y) else (0, y + 1) })
  else none

/-- Drains a `FrameIterator` into the list of items it yields.  The fuel
argument only bounds the recursion; `(width + 1)^2` steps are provably
enough from the initial state (see `enumerate_squares_eq`). -/
def FrameIterator.toListFuel : Nat → FrameIterator T → List (Nat × Nat × Option T)
  | 0, _ => []
  | fuel + 1, it =>
    match it.next with
    | none => []
    | some (item, it') => item :: FrameIterator.toListFuel fuel it'

/-- `Frame::enumerate_squares()`: all items yielded by a fresh
`FrameIterator` starting at `(0, 0)`. -/
def Frame.enumerate_squares (f : Frame T) : List (Nat × Nat × Option T) :=
  FrameIterator.toListFuel ((f.width + 1) * (f.width + 1))
    { frame := f, next_index := (0, 0) }

/-- The loop body of `Frame::next_frame`: walk the items of
`enumerate_squares`; for each yielded `(x, y, val)` (where `val` is `none`
exactly when the iterator's internal `get` panicked, aborting the whole
call), write `step` of the square anchored at `(x, y)` on the original
frame `f` into slot `self.height * y + x` of the buffer `d`. -/
def nextData (f : Frame T) (step : Square T → T) :
    List (Nat × Nat × Option T) → List T → Option (List T)
  | [], d => some d
  | (x, y, val) :: rest, d =>
    match val with
    | none => none
    | some _ =>
      nextData f step rest (d.set (f.height * y + x) (step { frame := f, point := (x, y) }))

/-- `Frame::next_frame` run with an explicit processing order: starting from
a clone of `self.data`, process the given items and wrap the resulting
buffer with the original dimensions. -/
def Frame.next_frame_with (f : Frame T) (step : Square T → T)
    (order : List (Nat × Nat × Option T)) : Option (Frame T) :=
  (nextData f step order f.data).map
    (fun d => { data := d, width := f.width, height := f.height })

/-- `Frame::next_frame(step)`: the loop order is the one produced by
`enumerate_squares`. -/
def Frame.next_frame (f : Frame T) (step : Square T → T) : Option (Frame T) :=
  f.next_frame_with step f.enumerate_squares

/-! ### Helper lemmas about `add_modulo` -/

/-- When the assertion `|y| < m` holds, `add_modulo` computes the
mathematical wraparound `(x + y) mod m` (Euclidean remainder). -/
theorem add_modulo_eq_emod (x : Nat) (y : Int) (m : Nat) (h : y.natAbs < m) :
    add_modulo x y m = some ((((x : Int) + y) % (m : Int)).toNat) := by
  have hm : 0 < m := Nat.lt_of_le_of_lt (Nat.zero_le _) h
  unfold add_modulo
  rw [if_pos h]
  rcases le_or_lt 0 y with hy | hy
  · have hneg : ¬ y < 0 := not_lt.mpr hy
    simp only [hneg, if_false]
    have hcast : ((x : Int) + y) = ((x + y.toNat : Nat) : Int) := by
      push_cast [Int.toNat_of_nonneg hy]
      ring
    rw [hcast, ← Int.ofNat_emod, Int.toNat_natCast]
    rw [show x % m + m + y.toNat = x % m + y.toNat + m from by omega]
    rw [Nat.add_mod_right, Nat.mod_add_mod]
  · simp only [hy, if_true]
    have hym : 0 ≤ y + (m : Int) := by omega
    set d := (y + (m : Int)).toNat with hd
    have hdy : (d : Int) = y + m := Int.toNat_of_nonneg hym
    have hcast : ((x : Int) + y) % (m : Int) = ((x + d : Nat) : Int) % (m : Int) := by
      have he : ((x + d : Nat) : Int) = ((x : Int) + y) + (m : Int) * 1 := by
        push_cast
        omega
      rw [he, Int.add_mul_emod_self_left]
    rw [hcast, ← Int.ofNat_emod, Int.toNat_natCast]
    rw [show x % m + m + d = x % m + d + m from by omega]
    rw [Nat.add_mod_right, Nat.mod_add_mod]

/-- The wrapped coordinate is strictly below the modulus. -/
theorem emod_toNat_lt (a : Int) (m : Nat) (hm : 0 < m) :
    ((a % (m : Int)).toNat) < m := by
  have h1 : 0 ≤ a % (m : Int) := Int.emod_nonneg a (by exact_mod_cast hm.ne')
  have h2 : a % (m : Int) < m := Int.emod_lt_of_pos a (by exact_mod_cast hm)
  omega

/-- Zero offset is the identity of `add_modulo` below the modulus. -/
theorem add_modulo_zero (x m : Nat) (hx : x < m) : add_modulo x 0 m = some x := by
  have hm : 0 < m := Nat.lt_of_le_of_lt (Nat.zero_le _) hx
  unfold add_modulo
  rw [if_pos (by simpa using hm)]
  simp only [show ¬ ((0 : Int) < 0) from by omega, if_false, Int.toNat_zero]
  congr 1
  rw [Nat.mod_eq_of_lt hx, Nat.add_zero, Nat.add_mod_right, Nat.mod_eq_of_lt hx]

/-! ### Helper lemmas about lists of indexed writes -/

/-- Folding a list of `(index, value)` writes into a buffer, as
`Frame::next_frame`'s loop does. -/
def writeFold (d : List T) (L : List (Nat × T)) : List T :=
  L.foldl (fun d p => d.set p.1 p.2) d

theorem writeFold_nil (d : List T) : writeFold d [] = d := rfl

theorem writeFold_cons (d : List T) (p : Nat × T) (L : List (Nat × T)) :
    writeFold d (p :: L) = writeFold (d.set p.1 p.2) L := rfl

theorem writeFold_length (L : List (Nat × T)) :
    ∀ d : List T, (writeFold d L).length = d.length := by
  induction L with
  | nil => intro d; rfl
  | cons p L ih =>
    intro d
    rw [writeFold_cons, ih, List.length_set]

theorem writeFold_get_of_not_mem (j : Nat) :
    ∀ (L : List (Nat × T)) (d : List T), j ∉ L.map Prod.fst →
      (writeFold d L)[j]? = d[j]? := by
  intro L
  induction L with
  | nil => intro d _; rfl
  | cons p L ih =>
    intro d hj
    rw [List.map_cons, List.mem_cons] at hj
    push_neg at hj
    rw [writeFold_cons, ih _ hj.2]
    exact List.getElem?_set_ne (Ne.symm hj.1)

theorem writeFold_get_hit (d : List T) (L₁ L₂ : List (Nat × T)) (j : Nat) (v : T)
    (hlen : j < d.length) (hj : j ∉ L₂.map Prod.fst) :
    (writeFold d (L₁ ++ (j, v) :: L₂))[j]? = some v := by
  unfold writeFold
  rw [List.foldl_append, List.foldl_cons]
  rw [show List.foldl (fun d p => d.set p.1 p.2)
        ((List.foldl (fun d p => d.set p.1 p.2) d L₁).set j v) L₂ =
      writeFold ((writeFold d L₁).set j v) L₂ from rfl]
  rw [writeFold_get_of_not_mem j L₂ _ hj]
  have hl : j < (writeFold d L₁).length := by rw [writeFold_length]; exact hlen
  exact List.getElem?_set_self hl

/-! ### Linear-index arithmetic -/

theorem index_lt (x y w h : Nat) (hx : x < w) (hy : y < h) (hwh : h ≤ w) :
    y * h + x < w * h := by
  have h1 : y * h ≤ (h - 1) * h := Nat.mul_le_mul_right h (by omega)
  have h2 : (h - 1) * h ≤ (h - 1) * w := Nat.mul_le_mul_left (h - 1) hwh
  have h3 : (h - 1) * w + w = h * w := by
    rw [← Nat.succ_mul]
    congr 1
    omega
  calc y * h + x < y * h + w := by omega
  _ ≤ (h - 1) * h + w := by omega
  _ ≤ (h - 1) * w + w := by omega
  _ = h * w := h3
  _ = w * h := Nat.mul_comm h w

theorem index_inj (h x x' y y' : Nat) (hx : x < h) (hx' : x' < h)
    (he : y * h + x = y' * h + x') : y = y' ∧ x = x' := by
  have h0 : 0 < h := Nat.lt_of_le_of_lt (Nat.zero_le _) hx
  have e1 : ∀ a b : Nat, b < h → (a * h + b) / h = a := by
    intro a b hb
    rw [Nat.add_comm, Nat.mul_comm, Nat.add_mul_div_left _ _ h0, Nat.div_eq_of_lt hb,
      Nat.zero_add]
  have hdiv := congrArg (· / h) he
  simp only at hdiv
  rw [e1 y x hx, e1 y' x' hx'] at hdiv
  subst hdiv
  exact ⟨rfl, Nat.add_left_cancel he⟩

/-! ### Closed form of the frame iterator -/

theorem next_eq_of_lt (f : Frame T) (x y : Nat) (hy : y < f.width) :
    FrameIterator.next ⟨f, (x, y)⟩ =
      some ((x, y, f.get x y),
        ⟨f, if x + 1 < f.width then (x + 1, y) else (0, y + 1)⟩) := by
  simp [FrameIterator.next, hy]

theorem next_eq_of_ge (f : Frame T) (x y : Nat) (hy : f.width ≤ y) :
    FrameIterator.next ⟨f, (x, y)⟩ = none := by
  simp [FrameIterator.next]
  omega

theorem toListFuel_stop (f : Frame T) (fuel x y : Nat) (hy : f.width ≤ y) :
    FrameIterator.toListFuel fuel ⟨f, (x, y)⟩ = [] := by
  cases fuel with
  | zero => rfl
  | succ n =>
    simp only [FrameIterator.toListFuel, next_eq_of_ge f x y hy]

theorem toListFuel_go (f : Frame T) :
    ∀ (fuel x y : Nat), x < f.width → y < f.width →
      (f.width - y) * (f.width + 1) + (f.width - x) < fuel →
      FrameIterator.toListFuel fuel ⟨f, (x, y)⟩ =
        ((List.range' x (f.width - x)).map (fun a => (a, y, f.get a y))) ++
        ((List.range' (y + 1) (f.width - (y + 1))).flatMap
          (fun b => (List.range f.width).map (fun a => (a, b, f.get a b)))) := by
  intro fuel
  induction fuel with
  | zero =>
    intro x y _ _ hfuel
    omega
  | succ n ih =>
    intro x y hx hy hfuel
    rw [show FrameIterator.toListFuel (n + 1) ⟨f, (x, y)⟩ =
        (x, y, f.get x y) ::
          FrameIterator.toListFuel n
            ⟨f, if x + 1 < f.width then (x + 1, y) else (0, y + 1)⟩ from by
      simp only [FrameIterator.toListFuel, next_eq_of_lt f x y hy]]
    by_cases hx1 : x + 1 < f.width
    · rw [if_pos hx1, ih (x + 1) y hx1 hy ?_]
      · rw [show f.width - x = (f.width - (x + 1)) + 1 from by omega, List.range'_succ,
          List.map_cons, List.cons_append]
      · set A := (f.width - y) * (f.width + 1) with hA
        have hsub : f.width - (x + 1) = (f.width - x) - 1 := by omega
        omega
    · rw [if_neg hx1]
      have hxw : x + 1 = f.width := by omega
      have hwx : f.width - x = 1 := by omega
      by_cases hy1 : y + 1 < f.width
      · rw [ih 0 (y + 1) (by omega) hy1 ?_]
        · rw [hwx, List.range'_one, Nat.sub_zero,
            show f.width - (y + 1) = (f.width - (y + 2)) + 1 from by omega,
            List.range'_succ, List.flatMap_cons, List.range_eq_range']
          simp
        · have hexp : (f.width - y) * (f.width + 1) =
              (f.width - (y + 1)) * (f.width + 1) + (f.width + 1) := by
            rw [show f.width - y = (f.width - (y + 1)) + 1 from by omega]
            ring
          set B := (f.width - (y + 1)) * (f.width + 1) with hB
          omega
      · rw [toListFuel_stop f n 0 (y + 1) (by omega)]
        rw [hwx, List.range'_one,
          show f.width - (y + 1) = 0 from by omega, List.range'_zero, List.flatMap_nil,
          List.append_nil]
        simp

theorem enumerate_squares_eq (f : Frame T) :
    f.enumerate_squares =
      (List.range f.width).flatMap
        (fun b => (List.range f.width).map (fun a => (a, b, f.get a b))) := by
  rcases Nat.eq_zero_or_pos f.width with h0 | hpos
  · unfold Frame.enumerate_squares
    rw [toListFuel_stop f _ 0 0 (by omega)]
    simp [h0]
  · unfold Frame.enumerate_squares
    rw [toListFuel_go f _ 0 0 hpos hpos ?_]
    · have hcons : (List.range' 0 f.width : List Nat) = 0 :: List.range' 1 (f.width - 1) := by
        conv_lhs => rw [show f.width = (f.width - 1) + 1 from by omega]
        rw [List.range'_succ]
      rw [Nat.sub_zero, List.range_eq_range', hcons, List.flatMap_cons]
    · have h1 : (f.width + 1) * (f.width + 1) = f.width * (f.width + 1) + f.width + 1 := by
        ring
      rw [Nat.sub_zero]
      set A := f.width * (f.width + 1) with hA
      omega

theorem mem_enumerate_squares (f : Frame T) (t : Nat × Nat × Option T)
    (ht : t ∈ f.enumerate_squares) :
    t.1 < f.width ∧ t.2.1 < f.width ∧ t.2.2 = f.get t.1 t.2.1 := by
  rw [enumerate_squares_eq] at ht
  simp only [List.mem_flatMap, List.mem_map, List.mem_range] at ht
  obtain ⟨b, hb, a, ha, rfl⟩ := ht
  exact ⟨ha, hb, rfl⟩

theorem range_split (w z : Nat) (hz : z < w) :
    List.range w = List.range' 0 z ++ z :: List.range' (z + 1) (w - (z + 1)) := by
  rw [List.range_eq_range']
  conv_lhs => rw [show w = (w - z) + z from by omega]
  rw [← List.range'_append_1]
  congr 1
  rw [Nat.zero_add, show w - z = (w - (z + 1)) + 1 from by omega, List.range'_succ]

/-- Split the row-major double loop at one loop position `(x, y)`. -/
theorem range_flatMap_split {α : Type} (F : Nat → Nat → α) (w x y : Nat)
    (hx : x < w) (hy : y < w) :
    (List.range w).flatMap (fun b => (List.range w).map (fun a => F a b)) =
      ((List.range' 0 y).flatMap (fun b => (List.range w).map (fun a => F a b)) ++
        (List.range' 0 x).map (fun a => F a y)) ++
      F x y ::
        ((List.range' (x + 1) (w - (x + 1))).map (fun a => F a y) ++
          (List.range' (y + 1) (w - (y + 1))).flatMap
            (fun b => (List.range w).map (fun a => F a b))) := by
  have h1 := congrArg (fun l => l.flatMap (fun b => (List.range w).map (fun a => F a b)))
    (range_split w y hy)
  simp only [List.flatMap_append, List.flatMap_cons] at h1
  have h2 := congrArg (fun l => l.map (fun a => F a y)) (range_split w x hx)
  simp only [List.map_append, List.map_cons] at h2
  rw [h1, h2]
  simp [List.append_assoc]

/-- `nextData` succeeds exactly when no yielded value panicked, and then it
is the fold of the per-cell writes. -/
theorem nextData_eq (f : Frame T) (step : Square T → T) :
    ∀ (L : List (Nat × Nat × Option T)) (d : List T),
      nextData f step L d =
        if L.all (fun t => t.2.2.isSome) then
          some (writeFold d
            (L.map (fun t => (f.height * t.2.1 + t.1, step ⟨f, (t.1, t.2.1)⟩))))
        else none := by
  intro L
  induction L with
  | nil => intro d; rfl
  | cons t L ih =>
    intro d
    obtain ⟨x, y, val⟩ := t
    cases val with
    | none => simp [nextData]
    | some v =>
      cases hall : L.all (fun t => t.2.2.isSome) <;>
        simp [nextData, ih, writeFold_cons, hall]

/-- The write list of `next_frame`, in row-major closed form. -/
theorem enumerate_map_writes (f : Frame T) (step : Square T → T) :
    f.enumerate_squares.map (fun t => (f.height * t.2.1 + t.1, step ⟨f, (t.1, t.2.1)⟩)) =
      (List.range f.width).flatMap
        (fun b => (List.range f.width).map
          (fun a => (f.height * b + a, step ⟨f, (a, b)⟩))) := by
  rw [enumerate_squares_eq, List.map_flatMap]
  simp only [List.map_map]
  rfl

/-- `Square::get` in terms of the Euclidean remainder, under the
`add_modulo` preconditions. -/
theorem square_get_eq (f : Frame T) (x y : Nat) (dx dy : Int)
    (hdx : dx.natAbs < f.width) (hdy : dy.natAbs < f.height) :
    Square.get ⟨f, (x, y)⟩ dx dy =
      f.get ((((x : Int) + dx) % (f.width : Int)).toNat)
        ((((y : Int) + dy) % (f.height : Int)).toNat) := by
  simp only [Square.get]
  rw [add_modulo_eq_emod x dx f.width hdx, add_modulo_eq_emod y dy f.height hdy]

/-! ### Claim C5 -/

/-- **C5** (confirmed): for every frame, every valid anchor `(x, y)` and every
offset `(dx, dy)` with `|dx| < width` and `|dy| < height`, `Square::get`
returns the frame's value at `((x + dx) mod width, (y + dy) mod height)`;
each wrapped coordinate lies in `[0, extent)` (negative offsets wrap
backward), and in particular an anchor at `x = 0` with offset `(-1, 0)`
reads column `width - 1` of the same row. -/
theorem square_get_wraparound (f : Frame T) (x y : Nat) (dx dy : Int)
    (hx : x < f.width) (hy : y < f.height)
    (hdx : dx.natAbs < f.width) (hdy : dy.natAbs < f.height) :
    ∃ wx wy : Nat,
      add_modulo x dx f.width = some wx ∧
      add_modulo y dy f.height = some wy ∧
      (wx : Int) = ((x : Int) + dx) % (f.width : Int) ∧
      (wy : Int) = ((y : Int) + dy) % (f.height : Int) ∧
      wx < f.width ∧ wy < f.height ∧
      Square.get ⟨f, (x, y)⟩ dx dy = f.get wx wy ∧
      (dx = -1 → dy = 0 → x = 0 → wx = f.width - 1 ∧ wy = y) := by
  have hw : 0 < f.width := Nat.lt_of_le_of_lt (Nat.zero_le _) hx
  have hh : 0 < f.height := Nat.lt_of_le_of_lt (Nat.zero_le _) hy
  refine ⟨(((x : Int) + dx) % (f.width : Int)).toNat,
    (((y : Int) + dy) % (f.height : Int)).toNat,
    add_modulo_eq_emod x dx f.width hdx, add_modulo_eq_emod y dy f.height hdy,
    ?_, ?_, emod_toNat_lt _ _ hw, emod_toNat_lt _ _ hh,
    square_get_eq f x y dx dy hdx hdy, ?_⟩
  · exact Int.toNat_of_nonneg (Int.emod_nonneg _ (by exact_mod_cast hw.ne'))
  · exact Int.toNat_of_nonneg (Int.emod_nonneg _ (by exact_mod_cast hh.ne'))
  · rintro rfl rfl rfl
    constructor
    · have hneg : (-1 : Int) % (f.width : Int) = (f.width : Int) - 1 := by
        have h2 := Int.add_mul_emod_self_left (-1) ((f.width : Int)) 1
        rw [show (-1 : Int) + (f.width : Int) * 1 = (f.width : Int) - 1 from by ring] at h2
        rw [← h2]
        exact Int.emod_eq_of_lt (by omega) (by omega)
      simp only [Nat.cast_zero, zero_add]
      rw [hneg]
      omega
    · simp only [Int.add_zero]
      rw [Int.emod_eq_of_lt (by omega) (by exact_mod_cast hy)]
      omega

/-- Witness for C5: on a fresh 3×3 frame anchored at `(0, 1)`, the offset
`(-1, 0)` wraps to column 2. -/
theorem square_get_wraparound_witness :
    ∃ wx wy : Nat,
      add_modulo 0 (-1) (Frame.new Nat 3 3).width = some wx ∧
      add_modulo 1 0 (Frame.new Nat 3 3).height = some wy ∧
      (wx : Int) = ((0 : Int) + (-1)) % ((Frame.new Nat 3 3).width : Int) ∧
      (wy : Int) = ((1 : Int) + 0) % ((Frame.new Nat 3 3).height : Int) ∧
      wx < (Frame.new Nat 3 3).width ∧ wy < (Frame.new Nat 3 3).height ∧
      Square.get ⟨Frame.new Nat 3 3, (0, 1)⟩ (-1) 0 = (Frame.new Nat 3 3).get wx wy ∧
      ((-1 : Int) = -1 → (0 : Int) = 0 → 0 = 0 →
        wx = (Frame.new Nat 3 3).width - 1 ∧ wy = 1) :=
  square_get_wraparound (Frame.new Nat 3 3) 0 1 (-1) 0 (by decide) (by decide)
    (by decide) (by decide)

/-! ### Claim C8 -/

/-- **C8** (confirmed): on any frame, `Square::get` panics (the `add_modulo`
assertion fails) whenever `|dx| ≥ width` or `|dy| ≥ height`; the offset is
never normalized by additional wraps. -/
theorem square_get_oversized_offset_panics (f : Frame T) (x y : Nat) (dx dy : Int)
    ( _hw : 1 ≤ f.width) ( _hh : 1 ≤ f.height)
    (hbad : f.width ≤ dx.natAbs ∨ f.height ≤ dy.natAbs) :
    Square.get ⟨f, (x, y)⟩ dx dy = none := by
  simp only [Square.get]
  rcases hbad with hb | hb
  · rw [show add_modulo x dx f.width = none from by
      unfold add_modulo; rw [if_neg (by omega)]]
  · rw [show add_modulo y dy f.height = none from by
      unfold add_modulo; rw [if_neg (by omega)]]
    cases add_modulo x dx f.width <;> rfl

/-- Witness for C8: offset `(5, 0)` on a 2×2 frame panics. -/
theorem square_get_oversized_offset_panics_witness :
    Square.get ⟨Frame.new Nat 2 2, (0, 0)⟩ 5 0 = none :=
  square_get_oversized_offset_panics (Frame.new Nat 2 2) 0 0 5 0 (by decide)
    (by decide) (by decide)

/-! ### Claim C9 -/

/-- **C9** (confirmed): on any frame with positive extents, the zero offset
is an identity: `Square::get(0, 0)` agrees with `Frame::get` at the anchor,
and `add_modulo(x, 0, m) = x` for all `x < m`. -/
theorem square_get_zero_offset_identity (f : Frame T) (x y : Nat)
    ( _hw : 1 ≤ f.width) ( _hh : 1 ≤ f.height)
    (hx : x < f.width) (hy : y < f.height) :
    Square.get ⟨f, (x, y)⟩ 0 0 = f.get x y ∧
    ∀ n m : Nat, n < m → add_modulo n 0 m = some n := by
  constructor
  · simp only [Square.get]
    rw [add_modulo_zero x f.width hx, add_modulo_zero y f.height hy]
  · intro n m hnm
    exact add_modulo_zero n m hnm

/-- Witness for C9 at the anchor `(1, 1)` of a 2×2 frame. -/
theorem square_get_zero_offset_identity_witness :
    Square.get ⟨Frame.new Nat 2 2, (1, 1)⟩ 0 0 = (Frame.new Nat 2 2).get 1 1 ∧
    ∀ n m : Nat, n < m → add_modulo n 0 m = some n :=
  square_get_zero_offset_identity (Frame.new Nat 2 2) 1 1 (by decide) (by decide)
    (by decide) (by decide)

/-! ### Claim C10 -/

/-- **C10** (confirmed): on a square grid, the linear index `y * height + x`
of `Frame::get` / `Frame::get_mut` stays inside the data buffer for every
valid coordinate (so the out-of-bounds branch is unreachable and `get`
succeeds), and it is injective, so distinct valid coordinates never alias. -/
theorem index_injective_in_bounds_square (f : Frame T)
    (hsq : f.width = f.height) (hWF : f.data.length = f.width * f.height)
    (x y x' y' : Nat) (hx : x < f.width) (hy : y < f.height)
    (hx' : x' < f.width) ( _hy' : y' < f.height) :
    f.index x y < f.data.length ∧ (∃ v, f.get x y = some v) ∧
    (f.index x y = f.index x' y' → x = x' ∧ y = y') := by
  have hlt : f.index x y < f.data.length := by
    rw [hWF]
    unfold Frame.index
    exact index_lt x y f.width f.height hx hy (le_of_eq hsq.symm)
  refine ⟨hlt, ⟨_, List.getElem?_eq_getElem hlt⟩, ?_⟩
  intro he
  unfold Frame.index at he
  have h2 := index_inj f.height x x' y y' (hsq ▸ hx) (hsq ▸ hx') he
  exact ⟨h2.2, h2.1⟩

/-- Witness for C10 on a 2×2 frame at the distinct coordinates
`(1, 0)` and `(0, 1)`. -/
theorem index_injective_in_bounds_square_witness :
    (Frame.new Nat 2 2).index 1 0 < (Frame.new Nat 2 2).data.length ∧
    (∃ v, (Frame.new Nat 2 2).get 1 0 = some v) ∧
    ((Frame.new Nat 2 2).index 1 0 = (Frame.new Nat 2 2).index 0 1 →
      1 = 0 ∧ 0 = 1) :=
  index_injective_in_bounds_square (Frame.new Nat 2 2) (by decide) (by decide)
    1 0 0 1 (by decide) (by decide) (by decide) (by decide)

/-! ### Claim C4 -/

/-- **C4** (code bug): `Frame::get` / `Frame::get_mut` do not fail fast on a
per-axis out-of-bounds coordinate.  On a 2×2 frame holding 7 at `(0, 1)`,
`get(2, 0)` (with `x = 2 ≥ width = 2`) silently returns that other valid
cell's value instead of panicking, and writing through `get_mut(2, 0)`
silently overwrites cell `(0, 1)`. -/
theorem get_out_of_bounds_returns_other_cell :
    ((Frame.new Nat 2 2).set 0 1 7).bind (fun g => g.get 2 0) = some 7 ∧
    ((Frame.new Nat 2 2).set 2 0 7).bind (fun g => g.get 0 1) = some 7 ∧
    (Frame.new Nat 2 2 : Frame Nat).width ≤ 2 := by
  decide

/-! ### Claim C2 -/

/-- Counterexample to C2 as stated: on the non-square 3×2 frame the linear
index `y * height + x` aliases, so writing 5 at `(2, 0)` also changes the
distinct valid coordinate `(0, 1)`, which held 0 before. -/
theorem set_get_alias_cex :
    ((Frame.new Nat 3 2).set 2 0 5).bind (fun g => g.get 0 1) = some 5 ∧
    (Frame.new Nat 3 2 : Frame Nat).get 0 1 = some 0 ∧
    ((0, 1) : Nat × Nat) ≠ (2, 0) ∧
    2 < (Frame.new Nat 3 2 : Frame Nat).width ∧
    1 < (Frame.new Nat 3 2 : Frame Nat).height := by
  decide

/-- **C2** (amended to square frames): on a frame with `width = height`,
writing `v` at a valid `(x, y)` through `get_mut` succeeds, reading `(x, y)`
back returns `v`, and every other valid coordinate keeps its prior value. -/
theorem set_get_roundtrip_square (f : Frame T) (hsq : f.width = f.height)
    (hWF : f.data.length = f.width * f.height) (x y : Nat) (v : T)
    (hx : x < f.width) (hy : y < f.height) :
    ∃ f', f.set x y v = some f' ∧
      f'.width = f.width ∧ f'.height = f.height ∧
      f'.get x y = some v ∧
      ∀ x' y', x' < f.width → y' < f.height → (x', y') ≠ (x, y) →
        f'.get x' y' = f.get x' y' := by
  have hlt : f.index x y < f.data.length := by
    rw [hWF]
    unfold Frame.index
    exact index_lt x y f.width f.height hx hy (le_of_eq hsq.symm)
  refine ⟨{ f with data := f.data.set (f.index x y) v }, ?_, rfl, rfl, ?_, ?_⟩
  · unfold Frame.set
    rw [if_pos hlt]
  · show (f.data.set (f.index x y) v)[f.index x y]? = some v
    exact List.getElem?_set_self hlt
  · intro x' y' hx' hy' hne
    show (f.data.set (f.index x y) v)[f.index x' y']? = f.data[f.index x' y']?
    apply List.getElem?_set_ne
    intro he
    unfold Frame.index at he
    have h2 := index_inj f.height x x' y y' (hsq ▸ hx) (hsq ▸ hx') he
    exact hne (by rw [h2.2, h2.1])

/-- Witness for C2 on a 2×2 frame: write 9 at `(0, 1)`. -/
theorem set_get_roundtrip_square_witness :
    ∃ f', (Frame.new Nat 2 2).set 0 1 9 = some f' ∧
      f'.width = (Frame.new Nat 2 2).width ∧
      f'.height = (Frame.new Nat 2 2).height ∧
      f'.get 0 1 = some 9 ∧
      ∀ x' y', x' < (Frame.new Nat 2 2).width → y' < (Frame.new Nat 2 2).height →
        (x', y') ≠ (0, 1) → f'.get x' y' = (Frame.new Nat 2 2).get x' y' :=
  set_get_roundtrip_square (Frame.new Nat 2 2) (by decide) (by decide) 0 1 9
    (by decide) (by decide)

/-! ### Claim C3 -/

/-- Counterexample to C3 as stated: on the non-square 1×2 frame the
iterator's bound `y < width` stops after row 0, so the valid coordinate
`(0, 1)` is never yielded (no triple for it, instead of exactly one). -/
theorem enumerate_squares_missing_cell_cex :
    (Frame.new Nat 1 2).enumerate_squares.countP
      (fun t => t.1 == 0 && t.2.1 == 1) = 0 ∧
    0 < (Frame.new Nat 1 2 : Frame Nat).width ∧
    1 < (Frame.new Nat 1 2 : Frame Nat).height := by
  decide

/-- **C3** (amended to square frames): on a frame with `width = height`,
`enumerate_squares` is exactly the row-major sequence starting at `(0, 0)`
advancing `x` before wrapping `y`; it yields exactly one triple per valid
coordinate, and each yielded value is the (successfully read) cell stored at
that coordinate. -/
theorem enumerate_squares_rowmajor_square (f : Frame T)
    (hsq : f.width = f.height) (hWF : f.data.length = f.width * f.height) :
    f.enumerate_squares =
      (List.range f.height).flatMap
        (fun b => (List.range f.width).map (fun a => (a, b, f.get a b))) ∧
    (∀ x y, x < f.width → y < f.height →
      f.enumerate_squares.countP (fun t => t.1 == x && t.2.1 == y) = 1) ∧
    (∀ t ∈ f.enumerate_squares, t.2.2 = f.get t.1 t.2.1 ∧ (t.2.2).isSome) := by
  refine ⟨?_, ?_, ?_⟩
  · exact (enumerate_squares_eq f).trans
      (congrArg
        (fun l : List Nat => l.flatMap
          (fun b => (List.range f.width).map (fun a => (a, b, f.get a b))))
        (show List.range f.width = List.range f.height from by rw [hsq]))
  · intro x y hx hy
    have hyw : y < f.width := by omega
    rw [enumerate_squares_eq,
      range_flatMap_split (fun a b => (a, b, f.get a b)) f.width x y hx hyw]
    rw [List.countP_append, List.countP_append, List.countP_cons]
    have hmid : ((fun t : Nat × Nat × Option T => t.1 == x && t.2.1 == y)
        (x, y, f.get x y)) = true := by simp
    rw [if_pos hmid]
    have hpre1 :
        ((List.range' 0 y).flatMap
          (fun b => (List.range f.width).map (fun a => (a, b, f.get a b)))).countP
          (fun t => t.1 == x && t.2.1 == y) = 0 := by
      rw [List.countP_eq_zero]
      intro t ht
      simp only [List.mem_flatMap, List.mem_map, List.mem_range'_1] at ht
      obtain ⟨b, hb, a, _, rfl⟩ := ht
      simp only [Bool.and_eq_true, beq_iff_eq]
      omega
    have hpre2 :
        ((List.range' 0 x).map (fun a => (a, y, f.get a y))).countP
          (fun t => t.1 == x && t.2.1 == y) = 0 := by
      rw [List.countP_eq_zero]
      intro t ht
      simp only [List.mem_map, List.mem_range'_1] at ht
      obtain ⟨a, ha, rfl⟩ := ht
      simp only [Bool.and_eq_true, beq_iff_eq]
      omega
    have hsuf :
        (((List.range' (x + 1) (f.width - (x + 1))).map (fun a => (a, y, f.get a y)) ++
          (List.range' (y + 1) (f.width - (y + 1))).flatMap
            (fun b => (List.range f.width).map (fun a => (a, b, f.get a b))))).countP
          (fun t => t.1 == x && t.2.1 == y) = 0 := by
      rw [List.countP_eq_zero]
      intro t ht
      simp only [List.mem_append, List.mem_flatMap, List.mem_map,
        List.mem_range'_1] at ht
      rcases ht with ⟨a, ha, rfl⟩ | ⟨b, hb, a, _, rfl⟩ <;>
        simp only [Bool.and_eq_true, beq_iff_eq] <;> omega
    rw [hpre1, hpre2, hsuf]
  · intro t ht
    obtain ⟨h1, h2, h3⟩ := mem_enumerate_squares f t ht
    refine ⟨h3, ?_⟩
    rw [h3]
    unfold Frame.get
    have hlt : f.index t.1 t.2.1 < f.data.length := by
      rw [hWF]
      unfold Frame.index
      exact index_lt t.1 t.2.1 f.width f.height h1 (by omega) (le_of_eq hsq.symm)
    rw [List.getElem?_eq_getElem hlt]
    rfl

/-- Witness for C3 on a 2×2 frame. -/
theorem enumerate_squares_rowmajor_square_witness :
    (Frame.new Nat 2 2).enumerate_squares =
      (List.range (Frame.new Nat 2 2).height).flatMap
        (fun b => (List.range (Frame.new Nat 2 2).width).map
          (fun a => (a, b, (Frame.new Nat 2 2).get a b))) ∧
    (∀ x y, x < (Frame.new Nat 2 2).width → y < (Frame.new Nat 2 2).height →
      (Frame.new Nat 2 2).enumerate_squares.countP
        (fun t => t.1 == x && t.2.1 == y) = 1) ∧
    (∀ t ∈ (Frame.new Nat 2 2).enumerate_squares,
      t.2.2 = (Frame.new Nat 2 2).get t.1 t.2.1 ∧ (t.2.2).isSome) :=
  enumerate_squares_rowmajor_square (Frame.new Nat 2 2) (by decide) (by decide)

theorem index_lt_stride (x y w h : Nat) (hx : x < h) (hy : y < w) :
    y * h + x < w * h := by
  calc y * h + x < y * h + h := by omega
  _ = (y + 1) * h := by ring
  _ ≤ w * h := Nat.mul_le_mul_right h (by omega)

/-- When the grid is at least as tall as it is wide, every value yielded by
`enumerate_squares` is a successful read. -/
theorem enumerate_all_isSome (f : Frame T)
    (hWF : f.data.length = f.width * f.height) (hwh : f.width ≤ f.height) :
    f.enumerate_squares.all (fun t => t.2.2.isSome) = true := by
  rw [List.all_eq_true]
  intro t ht
  obtain ⟨h1, h2, h3⟩ := mem_enumerate_squares f t ht
  rw [h3]
  unfold Frame.get
  have hlt : f.index t.1 t.2.1 < f.data.length := by
    rw [hWF]
    unfold Frame.index
    exact index_lt_stride t.1 t.2.1 f.width f.height (by omega) h2
  rw [List.getElem?_eq_getElem hlt]
  rfl

/-- Conversely, if every yielded value is a successful read (and the frame
is nonempty and well formed), the grid is at least as tall as wide:
otherwise the item at `(width - 1, width - 1)` would have panicked. -/
theorem width_le_height_of_all_isSome (f : Frame T)
    (hWF : f.data.length = f.width * f.height) (hw : 0 < f.width)
    (hall : f.enumerate_squares.all (fun t => t.2.2.isSome) = true) :
    f.width ≤ f.height := by
  by_contra hcon
  push_neg at hcon
  have hmem : ((f.width - 1, f.width - 1, f.get (f.width - 1) (f.width - 1)) :
      Nat × Nat × Option T) ∈ f.enumerate_squares := by
    rw [enumerate_squares_eq]
    simp only [List.mem_flatMap, List.mem_map, List.mem_range]
    exact ⟨f.width - 1, by omega, f.width - 1, by omega, rfl⟩
  rw [List.all_eq_true] at hall
  have h2 := hall _ hmem
  simp only at h2
  unfold Frame.get Frame.index at h2
  have hge : f.data.length ≤ (f.width - 1) * f.height + (f.width - 1) := by
    rw [hWF]
    have hexp : f.width * f.height = (f.width - 1) * f.height + f.height := by
      conv_lhs => rw [show f.width = (f.width - 1) + 1 from by omega]
      ring
    set A := (f.width - 1) * f.height with hA
    omega
  rw [List.getElem?_eq_none hge] at h2
  simp at h2

/-! ### Claim C1 -/

/-- Counterexample to C1 as stated: on the non-square 1×2 frame,
`next_frame` with the constant-5 rule returns a frame whose cell `(0, 1)`
is not `F(square)` (the cell is not even readable: the iterator never
visited row 1, and `get (0, 1)` indexes out of bounds). -/
theorem next_frame_nonsquare_cex :
    (Frame.new Nat 1 2).next_frame (fun _ => 5) =
      some { data := [5, 0], width := 1, height := 2 } ∧
    ({ data := [5, 0], width := 1, height := 2 } : Frame Nat).get 0 1 ≠ some 5 ∧
    0 < (Frame.new Nat 1 2 : Frame Nat).width ∧
    1 < (Frame.new Nat 1 2 : Frame Nat).height := by
  decide

/-- **C1** (amended to square frames): on a frame with `width = height`,
`next_frame F` returns a frame of identical dimensions whose every cell
`(x, y)` holds `F` of the square anchored at `(x, y)` on the original
(pre-advance) frame. -/
theorem next_frame_square_spec (f : Frame T) (step : Square T → T)
    (hsq : f.width = f.height) (hWF : f.data.length = f.width * f.height) :
    ∃ f', f.next_frame step = some f' ∧
      f'.width = f.width ∧ f'.height = f.height ∧
      ∀ x y, x < f.width → y < f.height →
        f'.get x y = some (step ⟨f, (x, y)⟩) := by
  have hall := enumerate_all_isSome f hWF (le_of_eq hsq)
  unfold Frame.next_frame Frame.next_frame_with
  rw [nextData_eq, if_pos hall]
  refine ⟨_, rfl, rfl, rfl, ?_⟩
  intro x y hx hy
  show (writeFold f.data
      (f.enumerate_squares.map
        (fun t => (f.height * t.2.1 + t.1, step ⟨f, (t.1, t.2.1)⟩))))[
      y * f.height + x]? = some (step ⟨f, (x, y)⟩)
  rw [enumerate_map_writes]
  rw [range_flatMap_split (fun a b => (f.height * b + a, step ⟨f, (a, b)⟩))
    f.width x y hx (by omega)]
  rw [show y * f.height + x = f.height * y + x from by rw [Nat.mul_comm]]
  apply writeFold_get_hit
  · rw [hWF, Nat.mul_comm f.height y]
    exact index_lt_stride x y f.width f.height (by omega) (by omega)
  · intro hmem
    simp only [List.map_append, List.map_map, List.mem_append, List.mem_map,
      List.map_flatMap, List.mem_flatMap, List.mem_range'_1, List.mem_range,
      Function.comp] at hmem
    rcases hmem with ⟨a, ha, hae⟩ | ⟨b, hb, a, ha, hae⟩
    · have hax : a = x := Nat.add_left_cancel hae
      omega
    · have hae' : b * f.height + a = y * f.height + x := by
        rw [Nat.mul_comm b f.height, Nat.mul_comm y f.height]
        exact hae
      have hinj := index_inj f.height a x b y (by omega) (by omega) hae'
      omega

/-- Witness for C1 on a 2×2 frame with the constant-3 rule. -/
theorem next_frame_square_spec_witness :
    ∃ f', (Frame.new Nat 2 2).next_frame (fun _ => 3) = some f' ∧
      f'.width = (Frame.new Nat 2 2).width ∧
      f'.height = (Frame.new Nat 2 2).height ∧
      ∀ x y, x < (Frame.new Nat 2 2).width → y < (Frame.new Nat 2 2).height →
        f'.get x y = some 3 :=
  next_frame_square_spec (Frame.new Nat 2 2) (fun _ => 3) (by decide) (by decide)

/-! ### Claim C6 -/

/-- **C6** (confirmed): one `next_frame` call is a pure function of the
pre-advance frame: every square handed to the rule is anchored on the
original frame `f` (it is `⟨f, (x, y)⟩` in `nextData`), the input frame is
untouched, and the result does not depend on the scan order — processing
the cells in any permutation of the iterator's order yields the same
next frame. -/
theorem next_frame_scan_order_independent (f : Frame T) (step : Square T → T)
    (hWF : f.data.length = f.width * f.height)
    (order : List (Nat × Nat × Option T))
    (hperm : order.Perm f.enumerate_squares) :
    f.next_frame_with step order = f.next_frame step := by
  unfold Frame.next_frame Frame.next_frame_with
  rw [nextData_eq, nextData_eq]
  have hall_eq : order.all (fun t => t.2.2.isSome) =
      f.enumerate_squares.all (fun t => t.2.2.isSome) := by
    cases he : f.enumerate_squares.all (fun t => t.2.2.isSome) with
    | true =>
      rw [List.all_eq_true] at he ⊢
      intro t ht
      exact he t (hperm.mem_iff.mp ht)
    | false =>
      cases ho : order.all (fun t => t.2.2.isSome) with
      | false => rfl
      | true =>
        exfalso
        rw [List.all_eq_true] at ho
        have het : f.enumerate_squares.all (fun t => t.2.2.isSome) = true := by
          rw [List.all_eq_true]
          intro t ht
          exact ho t (hperm.mem_iff.mpr ht)
        rw [het] at he
        cases he
  rw [hall_eq]
  by_cases hall : f.enumerate_squares.all (fun t => t.2.2.isSome) = true
  · rw [if_pos hall, if_pos hall]
    congr 1
    have hpm : (order.map
        (fun t => (f.height * t.2.1 + t.1, step ⟨f, (t.1, t.2.1)⟩))).Perm
        (f.enumerate_squares.map
          (fun t => (f.height * t.2.1 + t.1, step ⟨f, (t.1, t.2.1)⟩))) :=
      hperm.map _
    unfold writeFold
    refine congrArg some (List.Perm.foldl_eq' hpm ?_ f.data)
    intro p hp q hq z
    have hp' := hpm.mem_iff.mp hp
    have hq' := hpm.mem_iff.mp hq
    simp only [List.mem_map] at hp' hq'
    obtain ⟨t1, ht1, rfl⟩ := hp'
    obtain ⟨t2, ht2, rfl⟩ := hq'
    obtain ⟨ha1, hb1, hv1⟩ := mem_enumerate_squares f t1 ht1
    obtain ⟨ha2, hb2, hv2⟩ := mem_enumerate_squares f t2 ht2
    by_cases hidx : f.height * t1.2.1 + t1.1 = f.height * t2.2.1 + t2.1
    · have hwh : f.width ≤ f.height :=
        width_le_height_of_all_isSome f hWF (by omega) hall
      have hidx' : t1.2.1 * f.height + t1.1 = t2.2.1 * f.height + t2.1 := by
        rw [Nat.mul_comm t1.2.1 f.height, Nat.mul_comm t2.2.1 f.height]
        exact hidx
      have hinj := index_inj f.height t1.1 t2.1 t1.2.1 t2.2.1 (by omega) (by omega) hidx'
      rw [show t2.1 = t1.1 from hinj.2.symm, show t2.2.1 = t1.2.1 from hinj.1.symm]
    · exact List.set_comm _ _ z hidx
  · rw [if_neg hall, if_neg hall]

/-- Witness for C6: processing a 2×2 frame's cells in reversed order gives
the same next frame. -/
theorem next_frame_scan_order_independent_witness :
    (Frame.new Nat 2 2).next_frame_with (fun _ => 3)
      [(1, 1, some 0), (0, 1, some 0), (1, 0, some 0), (0, 0, some 0)] =
    (Frame.new Nat 2 2).next_frame (fun _ => 3) :=
  next_frame_scan_order_independent (Frame.new Nat 2 2) (fun _ => 3) (by decide)
    [(1, 1, some 0), (0, 1, some 0), (1, 0, some 0), (0, 0, some 0)] (by decide)

/-! ### Claim C7 -/

/-- The eight Moore-neighborhood offsets in the code's scan order:
outer loop `i = dx` from `-1` to `1`, inner loop `j = dy`, skipping
`(0, 0)`. -/
def mooreOffsets : List (Int × Int) :=
  [(-1, -1), (-1, 0), (-1, 1), (0, -1), (0, 1), (1, -1), (1, 0), (1, 1)]

theorem within_ortholinear_one_eq (sq : Square T) :
    sq.within_ortholinear 1 =
      (mooreOffsets.map (fun d => sq.get d.1 d.2)).mapM id := rfl

/-- Counterexample to C7 as stated: on the 3×4 frame (width 3, height 4,
both above 2) the square anchored at the valid coordinate `(0, 3)` panics
inside `within_ortholinear(1)` (row 3 indexes out of bounds through the
`y * height + x` formula), so no eight values are produced. -/
theorem within_ortholinear_one_nonsquare_cex :
    (Square.mk (Frame.new Nat 3 4) (0, 3)).within_ortholinear 1 = none ∧
    2 < (Frame.new Nat 3 4 : Frame Nat).width ∧
    2 < (Frame.new Nat 3 4 : Frame Nat).height ∧
    0 < (Frame.new Nat 3 4 : Frame Nat).width ∧
    3 < (Frame.new Nat 3 4 : Frame Nat).height := by
  decide

/-- **C7** (amended to frames at least as wide as tall): on a frame with
`width > 2`, `height > 2` and `height ≤ width`, `within_ortholinear 1` at
any valid anchor yields exactly 8 values — the wraparound neighbors at the
offsets `(-1,-1), (-1,0), (-1,1), (0,-1), (0,1), (1,-1), (1,0), (1,1)` in
that fixed scan order. -/
theorem within_ortholinear_one_neighbors (f : Frame T) (x y : Nat)
    (hw : 2 < f.width) (hh : 2 < f.height) (hwh : f.height ≤ f.width)
    (hx : x < f.width) (hy : y < f.height)
    (hWF : f.data.length = f.width * f.height) :
    ∃ vs : List T,
      Square.within_ortholinear ⟨f, (x, y)⟩ 1 = some vs ∧
      vs.length = 8 ∧
      mooreOffsets.map (fun d => Square.get ⟨f, (x, y)⟩ d.1 d.2) = vs.map some := by
  have hget : ∀ dx dy : Int, dx.natAbs < f.width → dy.natAbs < f.height →
      ∃ v, Square.get ⟨f, (x, y)⟩ dx dy = some v := by
    intro dx dy hdx hdy
    rw [square_get_eq f x y dx dy hdx hdy]
    unfold Frame.get
    have hxlt := emod_toNat_lt ((x : Int) + dx) f.width (by omega)
    have hylt := emod_toNat_lt ((y : Int) + dy) f.height (by omega)
    have hlt : f.index ((((x : Int) + dx) % (f.width : Int)).toNat)
        ((((y : Int) + dy) % (f.height : Int)).toNat) < f.data.length := by
      rw [hWF]
      unfold Frame.index
      exact index_lt _ _ f.width f.height hxlt hylt hwh
    exact ⟨_, List.getElem?_eq_getElem hlt⟩
  have n1 : ((-1 : Int)).natAbs = 1 := rfl
  have n0 : ((0 : Int)).natAbs = 0 := rfl
  have np : ((1 : Int)).natAbs = 1 := rfl
  obtain ⟨v1, h1⟩ := hget (-1) (-1) (by omega) (by omega)
  obtain ⟨v2, h2⟩ := hget (-1) 0 (by omega) (by omega)
  obtain ⟨v3, h3⟩ := hget (-1) 1 (by omega) (by omega)
  obtain ⟨v4, h4⟩ := hget 0 (-1) (by omega) (by omega)
  obtain ⟨v5, h5⟩ := hget 0 1 (by omega) (by omega)
  obtain ⟨v6, h6⟩ := hget 1 (-1) (by omega) (by omega)
  obtain ⟨v7, h7⟩ := hget 1 0 (by omega) (by omega)
  obtain ⟨v8, h8⟩ := hget 1 1 (by omega) (by omega)
  have hlist : mooreOffsets.map (fun d => Square.get ⟨f, (x, y)⟩ d.1 d.2) =
      [some v1, some v2, some v3, some v4, some v5, some v6, some v7, some v8] := by
    simp only [mooreOffsets, List.map_cons, List.map_nil]
    rw [show Square.get ⟨f, (x, y)⟩ ((-1 : Int), (-1 : Int)).1 ((-1 : Int), (-1 : Int)).2 =
      Square.get ⟨f, (x, y)⟩ (-1) (-1) from rfl, h1]
    rw [show Square.get ⟨f, (x, y)⟩ ((-1 : Int), (0 : Int)).1 ((-1 : Int), (0 : Int)).2 =
      Square.get ⟨f, (x, y)⟩ (-1) 0 from rfl, h2]
    rw [show Square.get ⟨f, (x, y)⟩ ((-1 : Int), (1 : Int)).1 ((-1 : Int), (1 : Int)).2 =
      Square.get ⟨f, (x, y)⟩ (-1) 1 from rfl, h3]
    rw [show Square.get ⟨f, (x, y)⟩ ((0 : Int), (-1 : Int)).1 ((0 : Int), (-1 : Int)).2 =
      Square.get ⟨f, (x, y)⟩ 0 (-1) from rfl, h4]
    rw [show Square.get ⟨f, (x, y)⟩ ((0 : Int), (1 : Int)).1 ((0 : Int), (1 : Int)).2 =
      Square.get ⟨f, (x, y)⟩ 0 1 from rfl, h5]
    rw [show Square.get ⟨f, (x, y)⟩ ((1 : Int), (-1 : Int)).1 ((1 : Int), (-1 : Int)).2 =
      Square.get ⟨f, (x, y)⟩ 1 (-1) from rfl, h6]
    rw [show Square.get ⟨f, (x, y)⟩ ((1 : Int), (0 : Int)).1 ((1 : Int), (0 : Int)).2 =
      Square.get ⟨f, (x, y)⟩ 1 0 from rfl, h7]
    rw [show Square.get ⟨f, (x, y)⟩ ((1 : Int), (1 : Int)).1 ((1 : Int), (1 : Int)).2 =
      Square.get ⟨f, (x, y)⟩ 1 1 from rfl, h8]
  refine ⟨[v1, v2, v3, v4, v5, v6, v7, v8], ?_, rfl, ?_⟩
  · rw [within_ortholinear_one_eq, hlist]
    rfl
  · rw [hlist]
    rfl

/-- Witness for C7 on a 3×3 frame anchored at `(0, 0)`. -/
theorem within_ortholinear_one_neighbors_witness :
    ∃ vs : List Nat,
      Square.within_ortholinear ⟨Frame.new Nat 3 3, (0, 0)⟩ 1 = some vs ∧
      vs.length = 8 ∧
      mooreOffsets.map (fun d => Square.get ⟨Frame.new Nat 3 3, (0, 0)⟩ d.1 d.2) =
        vs.map some :=
  within_ortholinear_one_neighbors (Frame.new Nat 3 3) 0 0 (by decide) (by decide)
    (by decide) (by decide) (by decide) (by decide)

example :
    (Frame.new Nat 2 2).enumerate_squares =
      [(0, 0, some 0), (1, 0, some 0), (0, 1, some 0), (1, 1, some 0)] := by
  decide

example :
    (Frame.new Nat 2 2).next_frame (fun sq => (sq.get 0 0).getD 0 + 1) =
      some { data := [1, 1, 1, 1], width := 2, height := 2 } := by
  decide

example :
    (Frame.new Nat 1 2).enumerate_squares = [(0, 0, some 0)] := by
  decide

end Simulation
